import Mathlib

/-!
# Verification of the Theia preview-handler core

A shallow embedding of `packages/preview/src/browser/preview-handler.ts`:
the `RenderContentParams.is` runtime type guard, the `PreviewHandler`
contract, and the `PreviewHandlerProvider` registry whose
`findContribution` ranks registered handlers by their `canHandle` score.

The registry delegates ranking to `Prioritizeable.prioritizeAllSync` from
`@theia/core`, whose source is not part of this repository snapshot; that
part is modelled from the specification (filter out scores `<= 0`, stable
sort by descending score, a handler whose `canHandle` throws is treated as
non-applicable for that query).
-/

/-- A JavaScript runtime value, as far as the `RenderContentParams.is`
type guard can observe it: `undefined`, `null`, primitives, or an object
with an ordered list of own named fields (a field may be bound to
`undefined` while its key is still present). -/
inductive JSVal where
  | undefined : JSVal
  | null : JSVal
  | boolean : Bool → JSVal
  | number : Int → JSVal
  | string : String → JSVal
  | obj : List (String × JSVal) → JSVal

/-- JavaScript truthiness (`!!v`): `undefined`, `null`, `false`, `0` and
the empty string are falsy; every object is truthy. -/
def truthy : JSVal → Bool
  | JSVal.undefined => false
  | JSVal.null => false
  | JSVal.boolean b => b
  | JSVal.number n => n != 0
  | JSVal.string s => s != ""
  | JSVal.obj _ => true

/-- The JavaScript `in` operator restricted to own fields: `k in v` holds
when `v` is an object owning a field named `k`, whatever its value. -/
def hasKey (v : JSVal) (k : String) : Bool :=
  match v with
  | JSVal.obj fields => fields.any (fun f => f.1 == k)
  | _ => false

/-- `RenderContentParams.is` from `preview-handler.ts`:
`!!params && 'content' in params && 'originUri' in params`. -/
def RenderContentParams.is (params : JSVal) : Bool :=
  truthy params && hasKey params "content" && hasKey params "originUri"

/-- An object whose `content` and `originUri` keys are both present but
bound to `undefined`: the guard accepts it (presence-only check). -/
def undefinedFieldsObj : JSVal :=
  JSVal.obj [("content", JSVal.undefined), ("originUri", JSVal.undefined)]

theorem hasKey_obj_iff (fields : List (String × JSVal)) (k : String) :
    hasKey (JSVal.obj fields) k = true ↔ ∃ v, (k, v) ∈ fields := by
  simp only [hasKey, List.any_eq_true, beq_iff_eq]
  constructor
  · rintro ⟨⟨k', v⟩, hmem, hk⟩
    exact ⟨v, hk ▸ hmem⟩
  · rintro ⟨v, hmem⟩
    exact ⟨(k, v), hmem, rfl⟩

/-- C5 (amended): the Render Parameters validity predicate returns `false`
for `undefined`, `false` when the `content` key is missing, `false` when
the `originUri` key is missing, and returns `true` exactly when both keys
are present in the object — presence of the key is what is checked, not
definedness of the bound value. -/
theorem renderContentParams_is_presence :
    RenderContentParams.is JSVal.undefined = false
    ∧ (∀ fields : List (String × JSVal), (∀ v, ("content", v) ∉ fields) →
        RenderContentParams.is (JSVal.obj fields) = false)
    ∧ (∀ fields : List (String × JSVal), (∀ v, ("originUri", v) ∉ fields) →
        RenderContentParams.is (JSVal.obj fields) = false)
    ∧ (∀ fields : List (String × JSVal),
        RenderContentParams.is (JSVal.obj fields) = true ↔
          (∃ v, ("content", v) ∈ fields) ∧ ∃ v, ("originUri", v) ∈ fields) := by
  refine ⟨rfl, ?_, ?_, ?_⟩
  · intro fields hmiss
    simp only [RenderContentParams.is, Bool.and_eq_false_iff]
    left
    right
    rw [Bool.eq_false_iff, Ne, hasKey_obj_iff]
    rintro ⟨v, hv⟩
    exact hmiss v hv
  · intro fields hmiss
    simp only [RenderContentParams.is, Bool.and_eq_false_iff]
    right
    rw [Bool.eq_false_iff, Ne, hasKey_obj_iff]
    rintro ⟨v, hv⟩
    exact hmiss v hv
  · intro fields
    simp only [RenderContentParams.is, truthy, Bool.true_and, Bool.and_eq_true,
      hasKey_obj_iff]

/-- Witness for C5 (amended) at concrete inputs: an object with only a
`content` field is rejected, and an object with both keys is accepted. -/
theorem renderContentParams_is_presence_witness :
    RenderContentParams.is (JSVal.obj [("content", JSVal.string "x")]) = false
    ∧ RenderContentParams.is
        (JSVal.obj [("content", JSVal.string "x"), ("originUri", JSVal.string "u")]) = true := by
  constructor
  · exact renderContentParams_is_presence.2.2.1
      [("content", JSVal.string "x")] (fun v hv => by simp at hv)
  · exact (renderContentParams_is_presence.2.2.2
      [("content", JSVal.string "x"), ("originUri", JSVal.string "u")]).mpr
      ⟨⟨JSVal.string "x", by simp⟩, ⟨JSVal.string "u", by simp⟩⟩

/-- Counterexample to C5 as stated: the claim says a field bound to
`undefined` makes the input invalid, but the guard accepts an object whose
`content` and `originUri` keys are both bound to `undefined`. -/
theorem renderContentParams_is_undefined_fields_accepted :
    RenderContentParams.is undefinedFieldsObj = true := rfl

/-- C9: the guard rejects every falsy argument — in particular `null` as
well as `undefined` — because the `!!params` conjunct short-circuits
before any field check. -/
theorem renderContentParams_is_falsy :
    RenderContentParams.is JSVal.null = false
    ∧ RenderContentParams.is JSVal.undefined = false
    ∧ ∀ v : JSVal, truthy v = false → RenderContentParams.is v = false := by
  refine ⟨rfl, rfl, ?_⟩
  intro v hv
  simp [RenderContentParams.is, hv]

/-- Witness for C9 at concrete falsy inputs: `false`, `0` and `""` are all
rejected by the guard. -/
theorem renderContentParams_is_falsy_witness :
    RenderContentParams.is (JSVal.boolean false) = false
    ∧ RenderContentParams.is (JSVal.number 0) = false
    ∧ RenderContentParams.is (JSVal.string "") = false :=
  ⟨renderContentParams_is_falsy.2.2 (JSVal.boolean false) rfl,
   renderContentParams_is_falsy.2.2 (JSVal.number 0) (by decide),
   renderContentParams_is_falsy.2.2 (JSVal.string "") (by decide)⟩

/-- C10: the guard checks key presence only; any object in which both the
`content` key and the `originUri` key exist is accepted, whatever values
(including `undefined`) the keys are bound to. -/
theorem renderContentParams_is_ignores_values :
    ∀ fields : List (String × JSVal), ∀ v w : JSVal,
      ("content", v) ∈ fields → ("originUri", w) ∈ fields →
      RenderContentParams.is (JSVal.obj fields) = true := by
  intro fields v w hv hw
  simp only [RenderContentParams.is, truthy, Bool.true_and, Bool.and_eq_true,
    hasKey_obj_iff]
  exact ⟨⟨v, hv⟩, ⟨w, hw⟩⟩

/-- Witness for C10 at the interesting input: both keys present but bound
to `undefined` — still accepted. -/
theorem renderContentParams_is_ignores_values_witness :
    RenderContentParams.is
      (JSVal.obj [("content", JSVal.undefined), ("originUri", JSVal.undefined)]) = true :=
  renderContentParams_is_ignores_values
    [("content", JSVal.undefined), ("originUri", JSVal.undefined)]
    JSVal.undefined JSVal.undefined (by simp) (by simp)

/-- A resource identifier (`URI` from `@theia/core`): opaque to the
registry, which only passes it to each handler's `canHandle`. -/
structure URI where
  scheme : String
  path : String
  fragment : Option String
deriving DecidableEq, Repr

/-- The `RenderContentParams` interface: textual content of the resource
and the URI it came from. -/
structure RenderContentParams where
  content : String
  originUri : URI

/-- A rendered output node (`HTMLElement`): opaque to the registry. -/
structure HTMLElement where
  nodeId : Nat
deriving DecidableEq, Repr

/-- The `PreviewHandler` contract. `canHandle` returns a score (`> 0`
means applicable, larger is better); since a JavaScript implementation may
also throw, its outcome is `Except Unit Int`, with `Except.error` standing
for a thrown exception. The three position-mapping operations are
optional capability slots. -/
structure PreviewHandler where
  iconClass : Option String
  canHandle : URI → Except Unit Int
  renderContent : RenderContentParams → Option HTMLElement
  findElementForFragment : Option (HTMLElement → String → Option HTMLElement)
  findElementForSourceLine : Option (HTMLElement → Nat → Option HTMLElement)
  getSourceLineForOffset : Option (HTMLElement → Nat → Option Int)

/-- `Prioritizeable<T>` from `@theia/core`: a value paired with the
priority computed for it. -/
structure Prioritized (α : Type) where
  priority : Int
  value : α

/-- Modelled from the spec: the priority a possibly-throwing `getPriority`
call yields — its returned score, or `0` (non-applicable) when it throws,
following the spec's failure semantics for a misbehaving handler. -/
def priorityOf (getPriority : α → Except Unit Int) (v : α) : Int :=
  match getPriority v with
  | Except.ok n => n
  | Except.error _ => 0

/-- The score actually used for a handler: its `canHandle` result, with a
thrown exception treated as score `0` (non-applicable). -/
def scoreOf (h : PreviewHandler) (uri : URI) : Int :=
  priorityOf (fun contrib => contrib.canHandle uri) h

/-- Modelled from the spec: `Prioritizeable.toPrioritizeableSync` of
`@theia/core` (source not in this snapshot) pairs every value with the
priority `getPriority` computes for it; a `getPriority` call that throws
yields priority `0`, so the value counts as non-applicable for this query
only. -/
def toPrioritizeableSync (vs : List α) (getPriority : α → Except Unit Int) :
    List (Prioritized α) :=
  vs.map fun v => ⟨priorityOf getPriority v, v⟩

/-- Modelled from the spec: `Prioritizeable.isValid` — only strictly
positive priorities are applicable. -/
def isValid (p : Prioritized α) : Bool :=
  0 < p.priority

/-- Stable insertion into a list sorted by descending priority: `x` goes
before the first element whose priority does not exceed `x`'s, so an
element inserted ahead of equal-priority elements stays ahead of them. -/
def insertDesc (x : Prioritized α) : List (Prioritized α) → List (Prioritized α)
  | [] => [x]
  | y :: ys => if y.priority ≤ x.priority then x :: y :: ys else y :: insertDesc x ys

/-- Modelled from the spec: the stable descending sort used by
`Prioritizeable.prioritizeAllSync` (the spec mandates a stable sort with
registration order as tie-break). -/
def sortDesc : List (Prioritized α) → List (Prioritized α)
  | [] => []
  | x :: xs => insertDesc x (sortDesc xs)

/-- Modelled from the spec: `Prioritizeable.prioritizeAllSync` of
`@theia/core` — compute every value's priority, discard priorities `≤ 0`,
and stably sort the rest by descending priority. -/
def prioritizeAllSync (vs : List α) (getPriority : α → Except Unit Int) :
    List (Prioritized α) :=
  sortDesc ((toPrioritizeableSync vs getPriority).filter isValid)

/-- `PreviewHandlerProvider`: holds the contribution-provided sequence of
registered handlers. -/
structure PreviewHandlerProvider where
  previewHandlerContributions : List PreviewHandler

/-- `PreviewHandlerProvider.findContribution`: prioritize all registered
handlers by `contrib.canHandle(uri)` and return the handlers (without
their scores) in that order. -/
def PreviewHandlerProvider.findContribution (p : PreviewHandlerProvider) (uri : URI) :
    List PreviewHandler :=
  (prioritizeAllSync p.previewHandlerContributions
    (fun contrib => contrib.canHandle uri)).map (fun c => c.value)

/-- `PreviewHandlerProvider.canHandle`:
`this.findContribution(uri).length > 0`. -/
def PreviewHandlerProvider.canHandle (p : PreviewHandlerProvider) (uri : URI) : Bool :=
  (p.findContribution uri).length > 0

/-- Registration-indexed variant of the ranking pipeline: the same
`prioritizeAllSync` applied to handlers paired with their registration
index, used to state orderedness and stability. -/
def rankedIdx (p : PreviewHandlerProvider) (uri : URI) :
    List (Prioritized (Nat × PreviewHandler)) :=
  prioritizeAllSync p.previewHandlerContributions.enum
    (fun contrib => contrib.2.canHandle uri)

/-- Relabel the carried value of a prioritized entry without touching the
priority. -/
def mapValue (f : α → β) (c : Prioritized α) : Prioritized β :=
  ⟨c.priority, f c.value⟩

theorem insertDesc_perm (x : Prioritized α) (l : List (Prioritized α)) :
    (insertDesc x l).Perm (x :: l) := by
  induction l with
  | nil => exact List.Perm.refl _
  | cons y ys ih =>
    rw [insertDesc]
    split
    · exact List.Perm.refl _
    · exact (ih.cons y).trans (List.Perm.swap x y ys)

theorem sortDesc_perm (l : List (Prioritized α)) : (sortDesc l).Perm l := by
  induction l with
  | nil => exact List.Perm.refl _
  | cons x xs ih => exact (insertDesc_perm x (sortDesc xs)).trans (ih.cons x)

theorem toPrioritizeableSync_map (f : α → β) (vs : List α)
    (g : β → Except Unit Int) :
    toPrioritizeableSync (vs.map f) g
      = (toPrioritizeableSync vs (fun v => g (f v))).map (mapValue f) := by
  simp only [toPrioritizeableSync, List.map_map]
  rfl

theorem filter_isValid_map (f : α → β) (l : List (Prioritized α)) :
    ((l.map (mapValue f)).filter isValid) = (l.filter isValid).map (mapValue f) := by
  rw [List.filter_map]
  rfl

theorem insertDesc_map (f : α → β) (x : Prioritized α) (l : List (Prioritized α)) :
    insertDesc (mapValue f x) (l.map (mapValue f)) = (insertDesc x l).map (mapValue f) := by
  induction l with
  | nil => rfl
  | cons y ys ih =>
    simp only [List.map_cons, insertDesc]
    by_cases h : y.priority ≤ x.priority
    · have hc : (mapValue f y).priority ≤ (mapValue f x).priority := h
      rw [if_pos hc, if_pos h]
      rfl
    · have hc : ¬(mapValue f y).priority ≤ (mapValue f x).priority := h
      rw [if_neg hc, if_neg h, List.map_cons, ih]

theorem sortDesc_map (f : α → β) (l : List (Prioritized α)) :
    sortDesc (l.map (mapValue f)) = (sortDesc l).map (mapValue f) := by
  induction l with
  | nil => rfl
  | cons x xs ih =>
    simp only [List.map_cons, sortDesc]
    rw [ih, insertDesc_map]

theorem prioritizeAllSync_map (f : α → β) (vs : List α) (g : β → Except Unit Int) :
    prioritizeAllSync (vs.map f) g
      = (prioritizeAllSync vs (fun v => g (f v))).map (mapValue f) := by
  unfold prioritizeAllSync
  rw [toPrioritizeableSync_map, filter_isValid_map, sortDesc_map]

/-- The result of `findContribution` is the registration-indexed ranking
with the indices and scores projected away. -/
theorem findContribution_eq_rankedIdx (p : PreviewHandlerProvider) (uri : URI) :
    p.findContribution uri = (rankedIdx p uri).map (fun c => c.value.2) := by
  unfold PreviewHandlerProvider.findContribution rankedIdx
  conv_lhs => rw [← List.enum_map_snd p.previewHandlerContributions]
  rw [prioritizeAllSync_map]
  simp [mapValue, List.map_map, Function.comp]

/-- Every entry of the indexed ranking carries exactly the score that the
handler's `canHandle` produced for this query. -/
theorem rankedIdx_priority_eq_scoreOf (p : PreviewHandlerProvider) (uri : URI) :
    ∀ c ∈ rankedIdx p uri, c.priority = scoreOf c.value.2 uri := by
  intro c hc
  have h1 : c ∈ (toPrioritizeableSync p.previewHandlerContributions.enum
      (fun contrib => contrib.2.canHandle uri)).filter isValid :=
    (sortDesc_perm _).mem_iff.mp hc
  have h2 := List.mem_of_mem_filter h1
  obtain ⟨v, _, rfl⟩ := List.mem_map.mp h2
  rfl

/-- Every entry of the indexed ranking has a strictly positive score. -/
theorem rankedIdx_priority_pos (p : PreviewHandlerProvider) (uri : URI) :
    ∀ c ∈ rankedIdx p uri, 0 < c.priority := by
  intro c hc
  have h1 : c ∈ (toPrioritizeableSync p.previewHandlerContributions.enum
      (fun contrib => contrib.2.canHandle uri)).filter isValid :=
    (sortDesc_perm _).mem_iff.mp hc
  have h2 := List.of_mem_filter h1
  simpa [isValid] using h2

/-- Inserting an element whose registration index precedes every index in
the list preserves the descending-score, index-tie-break ordering. -/
theorem pairwise_insertDesc {β : Type} (x : Prioritized (Nat × β))
    (l : List (Prioritized (Nat × β)))
    (hidx : ∀ y ∈ l, x.value.1 < y.value.1)
    (hl : l.Pairwise (fun a b =>
      b.priority < a.priority ∨ (a.priority = b.priority ∧ a.value.1 < b.value.1))) :
    (insertDesc x l).Pairwise (fun a b =>
      b.priority < a.priority ∨ (a.priority = b.priority ∧ a.value.1 < b.value.1)) := by
  induction l with
  | nil => simp [insertDesc]
  | cons y ys ih =>
    rw [List.pairwise_cons] at hl
    rw [insertDesc]
    by_cases h : y.priority ≤ x.priority
    · rw [if_pos h]
      rw [List.pairwise_cons]
      refine ⟨?_, List.pairwise_cons.mpr hl⟩
      intro b hb
      rcases List.mem_cons.mp hb with rfl | hbys
      · rcases lt_or_eq_of_le h with hlt | heq
        · exact Or.inl hlt
        · exact Or.inr ⟨heq.symm, hidx b (List.mem_cons_self _ _)⟩
      · rcases hl.1 b hbys with hlt | ⟨heq, _⟩
        · exact Or.inl (lt_of_lt_of_le hlt h)
        · rcases lt_or_eq_of_le h with hylt | hyeq
          · exact Or.inl (heq ▸ hylt)
          · exact Or.inr ⟨hyeq.symm.trans heq,
              hidx b (List.mem_cons_of_mem _ hbys)⟩
    · rw [if_neg h]
      rw [List.pairwise_cons]
      constructor
      · intro b hb
        rcases List.mem_cons.mp ((insertDesc_perm x ys).mem_iff.mp hb) with rfl | hbys
        · exact Or.inl (lt_of_not_le h)
        · exact hl.1 b hbys
      · exact ih (fun y hy => hidx y (List.mem_cons_of_mem _ hy)) hl.2

/-- Stably sorting a list whose registration indices strictly increase
yields a list ordered by descending score with the registration index as
tie-break. -/
theorem pairwise_sortDesc {β : Type} (l : List (Prioritized (Nat × β)))
    (hidx : l.Pairwise (fun a b => a.value.1 < b.value.1)) :
    (sortDesc l).Pairwise (fun a b =>
      b.priority < a.priority ∨ (a.priority = b.priority ∧ a.value.1 < b.value.1)) := by
  induction l with
  | nil => simp [sortDesc]
  | cons x xs ih =>
    rw [List.pairwise_cons] at hidx
    rw [sortDesc]
    refine pairwise_insertDesc x (sortDesc xs) ?_ (ih hidx.2)
    intro y hy
    exact hidx.1 y ((sortDesc_perm xs).mem_iff.mp hy)

/-- The filtered, indexed scoring list feeds the sort with strictly
increasing registration indices. -/
theorem rankedIdx_input_pairwise (p : PreviewHandlerProvider) (uri : URI) :
    ((toPrioritizeableSync p.previewHandlerContributions.enum
        (fun contrib => contrib.2.canHandle uri)).filter isValid).Pairwise
      (fun a b => a.value.1 < b.value.1) := by
  have henum : p.previewHandlerContributions.enum.Pairwise (fun a b => a.1 < b.1) := by
    rw [List.pairwise_iff_getElem]
    intro i j hi hj hij
    simp only [List.getElem_enum]
    simpa using hij
  have hmap : (toPrioritizeableSync p.previewHandlerContributions.enum
      (fun contrib => contrib.2.canHandle uri)).Pairwise
      (fun a b => a.value.1 < b.value.1) := by
    unfold toPrioritizeableSync
    rw [List.pairwise_map]
    exact henum
  exact hmap.sublist (List.filter_sublist _)

/-- C1: `findContribution(R)` is the value projection of the indexed
ranking, and that ranking is pairwise ordered by strictly descending
`canHandle` score, with equal-score entries ordered by strictly increasing
registration index (stable tie-break by registration order). -/
theorem findContribution_sorted_stable (p : PreviewHandlerProvider) (uri : URI) :
    p.findContribution uri = (rankedIdx p uri).map (fun c => c.value.2)
    ∧ (rankedIdx p uri).Pairwise (fun a b =>
        scoreOf b.value.2 uri < scoreOf a.value.2 uri
        ∨ (scoreOf a.value.2 uri = scoreOf b.value.2 uri ∧ a.value.1 < b.value.1)) := by
  refine ⟨findContribution_eq_rankedIdx p uri, ?_⟩
  have hp := pairwise_sortDesc _ (rankedIdx_input_pairwise p uri)
  refine List.Pairwise.imp_of_mem ?_ hp
  intro a b ha hb hr
  rw [← rankedIdx_priority_eq_scoreOf p uri a ha, ← rankedIdx_priority_eq_scoreOf p uri b hb]
  exact hr

/-- Projecting the valid scored entries back to their values is the same
as filtering the raw values by positive priority. -/
theorem map_value_filter_toPrioritizeable (vs : List α) (g : α → Except Unit Int) :
    ((toPrioritizeableSync vs g).filter isValid).map (fun c => c.value)
      = vs.filter (fun v => decide (0 < priorityOf g v)) := by
  induction vs with
  | nil => rfl
  | cons v vs ih =>
    simp only [toPrioritizeableSync, List.map_cons] at *
    by_cases h : (0 : Int) < priorityOf g v
    · rw [List.filter_cons_of_pos (by simpa [isValid] using h),
        List.filter_cons_of_pos (by simpa using h), List.map_cons, ih]
    · rw [List.filter_cons_of_neg (by simpa [isValid] using h),
        List.filter_cons_of_neg (by simpa using h), ih]

/-- The indexed ranking holds, as a multiset, exactly the registered
(index, handler) pairs whose score for this query is positive. -/
theorem rankedIdx_perm_filterPos (p : PreviewHandlerProvider) (uri : URI) :
    ((rankedIdx p uri).map (fun c => c.value)).Perm
      (p.previewHandlerContributions.enum.filter
        (fun iv => decide (0 < scoreOf iv.2 uri))) := by
  have h2 := (sortDesc_perm ((toPrioritizeableSync p.previewHandlerContributions.enum
      (fun contrib => contrib.2.canHandle uri)).filter isValid)).map
      (fun c : Prioritized (Nat × PreviewHandler) => c.value)
  refine h2.trans ?_
  rw [map_value_filter_toPrioritizeable]
  exact List.Perm.refl _

/-- Every handler returned by `findContribution` scored strictly
positively for this query. -/
theorem mem_findContribution_pos (p : PreviewHandlerProvider) (uri : URI) :
    ∀ h ∈ p.findContribution uri, 0 < scoreOf h uri := by
  intro h hh
  rw [findContribution_eq_rankedIdx] at hh
  obtain ⟨c, hc, rfl⟩ := List.mem_map.mp hh
  have hpos := rankedIdx_priority_pos p uri c hc
  rwa [rankedIdx_priority_eq_scoreOf p uri c hc] at hpos

/-- Every handler returned by `findContribution` is a registered one. -/
theorem mem_findContribution_registry (p : PreviewHandlerProvider) (uri : URI) :
    ∀ h ∈ p.findContribution uri, h ∈ p.previewHandlerContributions := by
  intro h hh
  rw [findContribution_eq_rankedIdx] at hh
  obtain ⟨c, hc, rfl⟩ := List.mem_map.mp hh
  have h1 : c.value ∈ (rankedIdx p uri).map (fun c => c.value) :=
    List.mem_map_of_mem _ hc
  have h2 := (rankedIdx_perm_filterPos p uri).mem_iff.mp h1
  have h3 := List.mem_of_mem_filter h2
  have h4 : c.value.2 ∈ p.previewHandlerContributions.enum.map Prod.snd :=
    List.mem_map_of_mem _ h3
  rwa [List.enum_map_snd] at h4

/-- C2: `findContribution(R)` contains no handler scoring `≤ 0`, and —
through the indexed ranking it projects from — it holds every registered
(index, handler) pair with a positive score exactly once and nothing
else. -/
theorem findContribution_exactly_positive (p : PreviewHandlerProvider) (uri : URI) :
    (∀ h ∈ p.findContribution uri, 0 < scoreOf h uri)
    ∧ p.findContribution uri = (rankedIdx p uri).map (fun c => c.value.2)
    ∧ ((rankedIdx p uri).map (fun c => c.value)).Perm
        (p.previewHandlerContributions.enum.filter
          (fun iv => decide (0 < scoreOf iv.2 uri))) :=
  ⟨mem_findContribution_pos p uri, findContribution_eq_rankedIdx p uri,
    rankedIdx_perm_filterPos p uri⟩

/-- C4: the registry's `canHandle` is `true` exactly when
`findContribution` is non-empty; in particular when every registered
handler scores `≤ 0` for the resource, `findContribution` is empty and
`canHandle` is `false`. -/
theorem canHandle_iff_findContribution_nonempty (p : PreviewHandlerProvider) (uri : URI) :
    (p.canHandle uri = true ↔ p.findContribution uri ≠ [])
    ∧ ((∀ h ∈ p.previewHandlerContributions, scoreOf h uri ≤ 0) →
        p.findContribution uri = [] ∧ p.canHandle uri = false) := by
  constructor
  · simp [PreviewHandlerProvider.canHandle, List.length_pos]
  · intro hall
    have hempty : p.findContribution uri = [] := by
      cases hres : p.findContribution uri with
      | nil => rfl
      | cons h t =>
        have hmem : h ∈ p.findContribution uri := hres ▸ List.mem_cons_self h t
        have hpos := mem_findContribution_pos p uri h hmem
        have hreg := mem_findContribution_registry p uri h hmem
        exact absurd hpos (not_lt.mpr (hall h hreg))
    refine ⟨hempty, ?_⟩
    simp [PreviewHandlerProvider.canHandle, hempty]

/-- A concrete resource used in the scenario instances. -/
def uriA : URI := ⟨"file", "readme.md", none⟩

/-- Scenario handler X: its `canHandle` throws for every resource. -/
def handlerX : PreviewHandler :=
  ⟨none, fun _ => Except.error (), fun _ => none, none, none, none⟩

/-- Scenario handler Y: applicable with score `3` for every resource. -/
def handlerY : PreviewHandler :=
  ⟨none, fun _ => Except.ok 3, fun _ => none, none, none, none⟩

/-- Scenario handler Z: score `0` (not applicable) for every resource. -/
def handlerZ : PreviewHandler :=
  ⟨none, fun _ => Except.ok 0, fun _ => none, none, none, none⟩

/-- Registry holding X (throws) then Y (score 3), in that order. -/
def pXY : PreviewHandlerProvider := ⟨[handlerX, handlerY]⟩

/-- Registry holding only Z (score 0). -/
def pZ : PreviewHandlerProvider := ⟨[handlerZ]⟩

/-- Registry holding only Y (score 3). -/
def pY : PreviewHandlerProvider := ⟨[handlerY]⟩

/-- Discarding beforehand the handlers whose `canHandle` throws does not
change the valid scored entries: a throwing handler scores `0` and is
filtered out by the validity filter anyway. -/
theorem filter_valid_filter_ok (vs : List α) (g : α → Except Unit Int) :
    (toPrioritizeableSync vs g).filter isValid
      = (toPrioritizeableSync (vs.filter (fun v => (g v).isOk)) g).filter isValid := by
  induction vs with
  | nil => rfl
  | cons v vs ih =>
    by_cases hg : (g v).isOk
    · have hcons : List.filter (fun v => (g v).isOk) (v :: vs)
          = v :: List.filter (fun v => (g v).isOk) vs := by
        simp [List.filter_cons, hg]
      rw [hcons]
      show ((⟨priorityOf g v, v⟩ : Prioritized α) :: toPrioritizeableSync vs g).filter isValid
        = ((⟨priorityOf g v, v⟩ : Prioritized α)
            :: toPrioritizeableSync (vs.filter (fun v => (g v).isOk)) g).filter isValid
      rw [List.filter_cons, List.filter_cons, ih]
    · have hcons : List.filter (fun v => (g v).isOk) (v :: vs)
          = List.filter (fun v => (g v).isOk) vs := by
        simp [List.filter_cons, hg]
      rw [hcons]
      show ((⟨priorityOf g v, v⟩ : Prioritized α) :: toPrioritizeableSync vs g).filter isValid
        = (toPrioritizeableSync (vs.filter (fun v => (g v).isOk)) g).filter isValid
      have hzero : priorityOf g v = 0 := by
        unfold priorityOf
        cases hgv : g v with
        | ok n => rw [hgv] at hg; exact absurd rfl hg
        | error e => rfl
      rw [List.filter_cons_of_neg (by simp [isValid, hzero]), ih]

/-- C3: a handler whose `canHandle` throws is excluded for that query
only: every returned handler's `canHandle` succeeded, the result equals
what the registry computes over the non-throwing handlers alone, and in
the spec's concrete scenario (X throws, Y scores 3, registered in that
order) the result is `[Y]`. -/
theorem findContribution_throwing_excluded (p : PreviewHandlerProvider) (uri : URI) :
    (∀ h ∈ p.findContribution uri, (h.canHandle uri).isOk = true)
    ∧ p.findContribution uri =
        PreviewHandlerProvider.findContribution
          ⟨p.previewHandlerContributions.filter (fun h => (h.canHandle uri).isOk)⟩ uri
    ∧ pXY.findContribution uriA = [handlerY] := by
  refine ⟨?_, ?_, rfl⟩
  · intro h hh
    have hpos := mem_findContribution_pos p uri h hh
    cases hc : h.canHandle uri with
    | ok n => rfl
    | error e =>
      have hz : scoreOf h uri = 0 := by simp only [scoreOf, priorityOf, hc]
      rw [hz] at hpos
      exact absurd hpos (lt_irrefl 0)
  · unfold PreviewHandlerProvider.findContribution prioritizeAllSync
    rw [filter_valid_filter_ok]

/-- An observable interaction with a registered handler: which method of
the handler at a given registration index was invoked. -/
inductive HandlerEvent where
  | canHandleCalled : Nat → HandlerEvent
  | renderContentCalled : Nat → HandlerEvent
deriving DecidableEq, Repr

/-- The scoring pass of `findContribution` instrumented to record every
handler-method invocation it performs: one `canHandle` call per
registered handler, in registration order. -/
def scoringPassTraced (uri : URI) :
    List (Nat × PreviewHandler) →
      List (Prioritized (Nat × PreviewHandler)) × List HandlerEvent
  | [] => ([], [])
  | iv :: rest =>
    (⟨priorityOf (fun contrib => contrib.2.canHandle uri) iv, iv⟩
        :: (scoringPassTraced uri rest).1,
      HandlerEvent.canHandleCalled iv.1 :: (scoringPassTraced uri rest).2)

/-- `findContribution` instrumented: returns, next to the result list, the
provider state after the call and the trace of handler-method
invocations; filtering and sorting call no handler method, so the trace is
exactly the scoring pass's. -/
def findContributionTraced (p : PreviewHandlerProvider) (uri : URI) :
    List PreviewHandler × PreviewHandlerProvider × List HandlerEvent :=
  ((sortDesc (((scoringPassTraced uri p.previewHandlerContributions.enum).1).filter
      isValid)).map (fun c => c.value.2),
    p,
    (scoringPassTraced uri p.previewHandlerContributions.enum).2)

theorem scoringPassTraced_fst (uri : URI) (vs : List (Nat × PreviewHandler)) :
    (scoringPassTraced uri vs).1
      = toPrioritizeableSync vs (fun contrib => contrib.2.canHandle uri) := by
  induction vs with
  | nil => rfl
  | cons iv rest ih =>
    show _ :: (scoringPassTraced uri rest).1 = _
    rw [ih]
    rfl

theorem scoringPassTraced_snd (uri : URI) (vs : List (Nat × PreviewHandler)) :
    (scoringPassTraced uri vs).2
      = vs.map (fun iv => HandlerEvent.canHandleCalled iv.1) := by
  induction vs with
  | nil => rfl
  | cons iv rest ih =>
    show HandlerEvent.canHandleCalled iv.1 :: (scoringPassTraced uri rest).2 = _
    rw [ih, List.map_cons]

/-- C6: the instrumented `findContribution` returns the same result list
as the pure one, hands back the provider exactly as it was (registry state
unchanged), and its trace consists of `canHandle` invocations only — in
particular no handler's `renderContent` is ever invoked. -/
theorem findContribution_effect_free (p : PreviewHandlerProvider) (uri : URI) :
    (findContributionTraced p uri).1 = p.findContribution uri
    ∧ (findContributionTraced p uri).2.1 = p
    ∧ ∀ e ∈ (findContributionTraced p uri).2.2,
        ∃ i, e = HandlerEvent.canHandleCalled i := by
  refine ⟨?_, rfl, ?_⟩
  · show (sortDesc (((scoringPassTraced uri p.previewHandlerContributions.enum).1).filter
        isValid)).map (fun c => c.value.2) = _
    rw [scoringPassTraced_fst, findContribution_eq_rankedIdx]
    rfl
  · intro e he
    have h2 : e ∈ p.previewHandlerContributions.enum.map
        (fun iv => HandlerEvent.canHandleCalled iv.1) := by
      rw [← scoringPassTraced_snd]
      exact he
    obtain ⟨iv, _, rfl⟩ := List.mem_map.mp h2
    exact ⟨iv.1, rfl⟩

/-- The ranking as a function of an explicit score snapshot: the registry
pipeline run on the scores `snapshot` reports instead of live `canHandle`
calls. -/
def findContributionWith (p : PreviewHandlerProvider)
    (snapshot : PreviewHandler → Except Unit Int) : List PreviewHandler :=
  (prioritizeAllSync p.previewHandlerContributions snapshot).map (fun c => c.value)

/-- C7: `findContribution` is exactly the ranking applied to the score
snapshot of the one query call, and that ranking depends only on the
snapshot's values on the registered handlers: two queries in which every
registered handler reports the same score produce identical result
lists. -/
theorem findContribution_deterministic (p : PreviewHandlerProvider) :
    (∀ uri, p.findContribution uri
        = findContributionWith p (fun contrib => contrib.canHandle uri))
    ∧ ∀ s1 s2 : PreviewHandler → Except Unit Int,
        (∀ h ∈ p.previewHandlerContributions, s1 h = s2 h) →
        findContributionWith p s1 = findContributionWith p s2 := by
  refine ⟨fun _ => rfl, ?_⟩
  intro s1 s2 hagree
  unfold findContributionWith prioritizeAllSync toPrioritizeableSync
  have hmaps : p.previewHandlerContributions.map
      (fun v => (⟨priorityOf s1 v, v⟩ : Prioritized PreviewHandler))
      = p.previewHandlerContributions.map (fun v => ⟨priorityOf s2 v, v⟩) := by
    apply List.map_congr_left
    intro h hm
    have : priorityOf s1 h = priorityOf s2 h := by
      unfold priorityOf
      rw [hagree h hm]
    rw [this]
  rw [hmaps]

/-- A block of rendered output in document order: its rendered extent in
scroll units and the source line it originates from. -/
structure RenderedBlock where
  height : Nat
  sourceLine : Nat
deriving DecidableEq, Repr

/-- Modelled from the spec: `getSourceLineForOffset` of a conforming
handler (the concrete renderer implementations are not part of this
snapshot). The rendered output is its sequence of blocks in document
order; the operation returns the source line of the block containing the
scroll offset, the last block's line when the offset runs past the end,
and nothing when the output is empty. -/
def sourceLineForOffset : List RenderedBlock → Nat → Option Nat
  | [], _ => none
  | b :: rest, offset =>
    if offset < b.height then some b.sourceLine
    else
      match sourceLineForOffset rest (offset - b.height) with
      | some l => some l
      | none => some b.sourceLine

/-- Any line reported for an offset is the source line of one of the
rendered blocks. -/
theorem sourceLineForOffset_mem :
    ∀ (blocks : List RenderedBlock) (o l : Nat),
      sourceLineForOffset blocks o = some l →
      l ∈ blocks.map (fun b => b.sourceLine) := by
  intro blocks
  induction blocks with
  | nil => intro o l h; simp [sourceLineForOffset] at h
  | cons b rest ih =>
    intro o l h
    rw [sourceLineForOffset] at h
    by_cases hb : o < b.height
    · rw [if_pos hb] at h
      injection h with h
      rw [List.map_cons, ← h]
      exact List.mem_cons_self _ _
    · rw [if_neg hb] at h
      cases hr : sourceLineForOffset rest (o - b.height) with
      | some l2 =>
        rw [hr] at h
        injection h with h
        rw [List.map_cons, ← h]
        exact List.mem_cons_of_mem _ (ih _ l2 hr)
      | none =>
        rw [hr] at h
        injection h with h
        rw [List.map_cons, ← h]
        exact List.mem_cons_self _ _

/-- On non-empty rendered output the mapping always reports a line. -/
theorem sourceLineForOffset_isSome (b : RenderedBlock) (rest : List RenderedBlock)
    (o : Nat) : ∃ l, sourceLineForOffset (b :: rest) o = some l := by
  rw [sourceLineForOffset]
  by_cases hb : o < b.height
  · exact ⟨b.sourceLine, if_pos hb⟩
  · rw [if_neg hb]
    cases hr : sourceLineForOffset rest (o - b.height) with
    | some l => exact ⟨l, rfl⟩
    | none => exact ⟨b.sourceLine, rfl⟩

/-- Monotonicity of the offset-to-line mapping, with `≤` on offsets. -/
theorem sourceLineForOffset_mono_le :
    ∀ (blocks : List RenderedBlock),
      blocks.Pairwise (fun a b => a.sourceLine ≤ b.sourceLine) →
      ∀ (o1 o2 l1 l2 : Nat), o1 ≤ o2 →
        sourceLineForOffset blocks o1 = some l1 →
        sourceLineForOffset blocks o2 = some l2 → l1 ≤ l2 := by
  intro blocks
  induction blocks with
  | nil => intro _ o1 o2 l1 l2 _ h1 _; simp [sourceLineForOffset] at h1
  | cons b rest ih =>
    intro hconf o1 o2 l1 l2 h12 h1 h2
    rw [List.pairwise_cons] at hconf
    rw [sourceLineForOffset] at h1 h2
    by_cases hb2 : o2 < b.height
    · have hb1 : o1 < b.height := lt_of_le_of_lt h12 hb2
      rw [if_pos hb1] at h1
      rw [if_pos hb2] at h2
      injection h1 with h1
      injection h2 with h2
      rw [← h1, ← h2]
    · rw [if_neg hb2] at h2
      by_cases hb1 : o1 < b.height
      · rw [if_pos hb1] at h1
        injection h1 with h1
        cases hr : sourceLineForOffset rest (o2 - b.height) with
        | some l =>
          rw [hr] at h2
          injection h2 with h2
          have hl := sourceLineForOffset_mem rest _ l hr
          obtain ⟨bl, hbl, hble⟩ := List.mem_map.mp hl
          rw [← h1, ← h2, ← hble]
          exact hconf.1 bl hbl
        | none =>
          rw [hr] at h2
          injection h2 with h2
          rw [← h1, ← h2]
      · rw [if_neg hb1] at h1
        have h12s : o1 - b.height ≤ o2 - b.height := Nat.sub_le_sub_right h12 _
        cases hr1 : sourceLineForOffset rest (o1 - b.height) with
        | some la =>
          rw [hr1] at h1
          injection h1 with h1
          cases hr2 : sourceLineForOffset rest (o2 - b.height) with
          | some lb =>
            rw [hr2] at h2
            injection h2 with h2
            rw [← h1, ← h2]
            exact ih hconf.2 _ _ la lb h12s hr1 hr2
          | none =>
            cases rest with
            | nil => simp [sourceLineForOffset] at hr1
            | cons c cs =>
              obtain ⟨l0, hl0⟩ := sourceLineForOffset_isSome c cs (o2 - b.height)
              rw [hr2] at hl0
              exact absurd hl0 (by simp)
        | none =>
          rw [hr1] at h1
          injection h1 with h1
          cases hr2 : sourceLineForOffset rest (o2 - b.height) with
          | some lb =>
            cases rest with
            | nil => simp [sourceLineForOffset] at hr2
            | cons c cs =>
              obtain ⟨l0, hl0⟩ := sourceLineForOffset_isSome c cs (o1 - b.height)
              rw [hr1] at hl0
              exact absurd hl0 (by simp)
          | none =>
            rw [hr2] at h2
            injection h2 with h2
            rw [← h1, ← h2]

/-- C8: for a conforming handler — one whose rendered blocks appear in
source order, so their source lines are non-decreasing down the output —
the line reported by `getSourceLineForOffset` is monotonically
non-decreasing in the scroll offset: offsets `o1 < o2` yield lines
`l1 ≤ l2`. -/
theorem getSourceLineForOffset_monotone (blocks : List RenderedBlock)
    (hconf : blocks.Pairwise (fun a b => a.sourceLine ≤ b.sourceLine))
    (o1 o2 : Nat) (h12 : o1 < o2) (l1 l2 : Nat)
    (h1 : sourceLineForOffset blocks o1 = some l1)
    (h2 : sourceLineForOffset blocks o2 = some l2) : l1 ≤ l2 :=
  sourceLineForOffset_mono_le blocks hconf o1 o2 l1 l2 (le_of_lt h12) h1 h2

/-- Witness for C2 at a concrete registry: the returned handler Y indeed
scored positively for the query. -/
theorem findContribution_exactly_positive_witness :
    0 < scoreOf handlerY uriA :=
  (findContribution_exactly_positive pXY uriA).1 handlerY
    (show handlerY ∈ [handlerY] from List.mem_singleton.mpr rfl)

/-- Witness for C3 at the concrete scenario registry: the returned handler
Y's `canHandle` did not throw. -/
theorem findContribution_throwing_excluded_witness :
    (handlerY.canHandle uriA).isOk = true :=
  (findContribution_throwing_excluded pXY uriA).1 handlerY
    (show handlerY ∈ [handlerY] from List.mem_singleton.mpr rfl)

/-- Witness for C4 at a registry whose only handler scores `0`: the result
is empty and the registry's `canHandle` is `false`. -/
theorem canHandle_iff_findContribution_nonempty_witness :
    pZ.findContribution uriA = [] ∧ pZ.canHandle uriA = false :=
  (canHandle_iff_findContribution_nonempty pZ uriA).2
    (fun h hm => by
      rcases List.mem_singleton.mp hm with rfl
      exact le_refl 0)

/-- Witness for C6 at a concrete registry and a concrete trace event: the
first recorded event is a `canHandle` invocation. -/
theorem findContribution_effect_free_witness :
    ∃ i, HandlerEvent.canHandleCalled 0 = HandlerEvent.canHandleCalled i :=
  (findContribution_effect_free pXY uriA).2.2 (HandlerEvent.canHandleCalled 0)
    (by decide)

/-- Witness for C7 at a concrete registry: the live score snapshot of a
query and a constant snapshot that agrees with it on the one registered
handler produce the same result list. -/
theorem findContribution_deterministic_witness :
    findContributionWith pY (fun contrib => contrib.canHandle uriA)
      = findContributionWith pY (fun _ => Except.ok 3) :=
  (findContribution_deterministic pY).2
    (fun contrib => contrib.canHandle uriA) (fun _ => Except.ok 3)
    (fun h hm => by
      rcases List.mem_singleton.mp hm with rfl
      rfl)

/-- Witness for C8 at a concrete rendered output of two blocks (lines 1
and 4): offsets `2 < 12` map to lines `1 ≤ 4`. -/
theorem getSourceLineForOffset_monotone_witness :
    sourceLineForOffset [⟨10, 1⟩, ⟨5, 4⟩] 2 = some 1
    ∧ sourceLineForOffset [⟨10, 1⟩, ⟨5, 4⟩] 12 = some 4
    ∧ (1 : Nat) ≤ 4 :=
  ⟨by decide, by decide,
    getSourceLineForOffset_monotone [⟨10, 1⟩, ⟨5, 4⟩] (by decide) 2 12 (by decide)
      1 4 (by decide) (by decide)⟩
